import Mathlib

/-!
# Verification of the `pymea` spike-analysis pipeline

Shallow embedding of the post-detection spike analysis pipeline of
`src/pymea/pymea.py`: the cofiring-event detector, the conductance pair
classifier, the keep-electrode selector, the tagging orchestrator, waveform
extraction, the bandpass signal conditioner, spike sub-clustering, and the
`MEASpikeDict` container.

Modelling conventions:
* pandas `DataFrame` rows of the spike table become `SpikeRow` records
  (row label `idx`, `electrode`, `time`, `amplitude`, `threshold`,
  `conductance`); column selection becomes field access.
* floating point numbers are modelled by `ℚ`.
* raising an exception is modelled by `Except PyErr`.
* pandas sorting (`DataFrame.sort`) is modelled by `List.insertionSort`
  on the sort column.
-/

set_option maxRecDepth 200000

namespace Pymea

attribute [local semireducible] Rat.add Rat.mul Rat.sub Rat.inv

/-- Lexicographic comparison of code-point lists: the order Python uses to
compare strings (`sorted`, `<` on `str`). -/
def charListLeB : List Char → List Char → Bool
  | [], _ => true
  | _ :: _, [] => false
  | a :: as, b :: bs =>
    if a.toNat < b.toNat then true
    else if b.toNat < a.toNat then false
    else charListLeB as bs

/-- Python string comparison `a <= b`: lexicographic on code points. -/
def strLeB (a b : String) : Bool := charListLeB a.data b.data

/-- `strLeB` as a relation, for use with `List.insertionSort`. -/
def strLeR (a b : String) : Prop := strLeB a b = true

instance strLeRDec : DecidableRel strLeR :=
  fun a b => inferInstanceAs (Decidable (strLeB a b = true))

/-- Python `s.startswith(p)`. -/
def pyStartsWith (s p : String) : Bool := List.isPrefixOf p.data s.data

/-- One row of the spike table: the pandas row label (`idx`), and the
`electrode`, `time`, `amplitude`, `threshold` and `conductance` columns. -/
structure SpikeRow where
  idx : Nat
  electrode : String
  time : ℚ
  amplitude : ℚ
  threshold : ℚ
  conductance : Bool
deriving DecidableEq

/-- Errors raised by the modelled pandas/Python operations. -/
inductive PyErr where
  | valueError
  | indexError
deriving DecidableEq

instance exceptDecEq {ε α : Type} [DecidableEq ε] [DecidableEq α] :
    DecidableEq (Except ε α) := fun x y =>
  match x, y with
  | .error e, .error f =>
    if h : e = f then isTrue (by rw [h]) else isFalse (fun hh => by cases hh; exact h rfl)
  | .error _, .ok _ => isFalse (fun hh => by cases hh)
  | .ok _, .error _ => isFalse (fun hh => by cases hh)
  | .ok a, .ok b =>
    if h : a = b then isTrue (by rw [h]) else isFalse (fun hh => by cases hh; exact h rfl)

instance timeLeDec : DecidableRel (fun a b : SpikeRow => a.time ≤ b.time) :=
  fun a b => inferInstanceAs (Decidable (a.time ≤ b.time))

instance elecLeDec : DecidableRel (fun a b : SpikeRow => strLeR a.electrode b.electrode) :=
  fun a b => inferInstanceAs (Decidable (strLeB a.electrode b.electrode = true))

/-- `sub_df.sort('time')`: sort the rows by the `time` column. -/
def sortByTime (rows : List SpikeRow) : List SpikeRow :=
  List.insertionSort (fun a b => a.time ≤ b.time) rows

/-- `event.sort('electrode')`: sort the rows by the `electrode` column. -/
def sortByElectrode (rows : List SpikeRow) : List SpikeRow :=
  List.insertionSort (fun a b => strLeR a.electrode b.electrode) rows

/-- Helper for `groupRuns`: extends the current run `cur` (kept reversed)
with the remaining rows, starting a new run whenever the time difference
to the previous row exceeds `minSep`. -/
def groupRunsAux (minSep : ℚ) (prev : SpikeRow) (cur : List SpikeRow) :
    List SpikeRow → List (List SpikeRow)
  | [] => [cur.reverse]
  | r :: rest =>
    if minSep < r.time - prev.time then
      cur.reverse :: groupRunsAux minSep r [r] rest
    else
      groupRunsAux minSep r (r :: cur) rest

/-- The partition of a time-sorted row list into maximal runs, splitting
wherever `np.diff(sub_df.time.values) > min_sep`
(`cofiring_events`, `src/pymea/pymea.py:410-413`). -/
def groupRuns (minSep : ℚ) : List SpikeRow → List (List SpikeRow)
  | [] => []
  | r :: rest => groupRunsAux minSep r [r] rest

/-- `cofiring_events(dataframe, min_sep)` (`src/pymea/pymea.py:392-419`):
sort by time, partition into maximal runs at gaps exceeding `min_sep`, and
keep exactly the runs consisting of two rows. -/
def cofiring_events (dataframe : List SpikeRow) (min_sep : ℚ) : List (List SpikeRow) :=
  (groupRuns min_sep (sortByTime dataframe)).filter (fun run => run.length == 2)

/-- `cofiring.time.diff()`: the list of successive time differences of the
rows.  pandas yields `NaN` in the first slot; a `NaN` fails every `<`
comparison, so the model keeps only the `n-1` genuine differences, which is
what survives the `diffs[diffs < 0.0012]` selection downstream. -/
def timeDiffs : List SpikeRow → List ℚ
  | [] => []
  | [_] => []
  | a :: b :: rest => (b.time - a.time) :: timeDiffs (b :: rest)

/-- Sample variance with `ddof=1` (the pandas `Series.std` convention,
squared): `Σ (x - mean)² / (n - 1)`. -/
def sampleVar (ds : List ℚ) : ℚ :=
  let n : ℚ := ds.length
  let m : ℚ := ds.sum / n
  ((ds.map (fun x => (x - m) ^ 2)).sum) / (n - 1)

/-- The pandas comparison `series.std() < c` for `c > 0`, encoded on the
variance: `std < c ↔ var < c²` since both sides are nonnegative.  With
fewer than two entries pandas `std` (`ddof=1`) is `NaN` and the comparison
is `False`, hence the length guard. -/
def stdBelow (ds : List ℚ) (c : ℚ) : Bool :=
  decide (2 ≤ ds.length) && decide (sampleVar ds < c ^ 2)

/-- The inline conductance pair classifier of `tag_conductance_spikes`
(`src/pymea/pymea.py:470`):
`len(cofiring) > 30 and 1000*diffs[diffs < 0.0012].std() < 0.3`, where
`cofiring` is the electrode-sorted concatenation of the pair's cofiring
events and `diffs` its successive time differences.  `1000*std < 0.3` is
`std < 3/10000` (seconds). -/
def conductance_cond (cofiring : List SpikeRow) : Bool :=
  decide (30 < cofiring.length) &&
    stdBelow ((timeDiffs cofiring).filter (fun d => decide (d < 12/10000))) (3/10000)

/-- The keys of `dataframe.groupby('electrode')`: the distinct electrode
tags, in sorted order (pandas sorts group keys). -/
def groupTags (rows : List SpikeRow) : List String :=
  List.insertionSort strLeR ((rows.map (fun r => r.electrode)).eraseDups)

/-- The group of `dataframe.groupby('electrode')` belonging to tag `t`:
the rows with that electrode, in their original order. -/
def groupOf (rows : List SpikeRow) (t : String) : List SpikeRow :=
  rows.filter (fun r => r.electrode == t)

/-- `.amplitude.mean()` of one electrode group. -/
def meanAmplitude (rows : List SpikeRow) : ℚ :=
  ((rows.map (fun r => r.amplitude)).sum) / (rows.length : ℚ)

/-- One entry of `dataframe.groupby('electrode').amplitude.mean().abs()`:
the absolute value of the mean amplitude of the group of tag `t`. -/
def absMeanOf (rows : List SpikeRow) (t : String) : ℚ :=
  |meanAmplitude (groupOf rows t)|

/-- `amplitudes.max()`: the largest of the per-electrode absolute mean
amplitudes (all of them are nonnegative, so folding `max` from `0` is the
maximum of a nonempty list). -/
def maxAbsMean (rows : List SpikeRow) : ℚ :=
  ((groupTags rows).map (absMeanOf rows)).foldl max 0

/-- `amplitudes[amplitudes > 0.8 * amplitudes.max()]`: the electrode tags
within 20% of the maximal absolute mean amplitude. -/
def keepCandidates (rows : List SpikeRow) : List String :=
  (groupTags rows).filter (fun t => decide ((8/10) * maxAbsMean rows < absMeanOf rows t))

/-- `choose_keep_electrode(dataframe)` (`src/pymea/pymea.py:422-441`):
`sorted(list(big_amplitudes.index))[0]`.  Indexing an empty list raises
`IndexError`, modelled by `none`. -/
def choose_keep_electrode (rows : List SpikeRow) : Option String :=
  (List.insertionSort strLeR (keepCandidates rows)).head?

/-- The mean of the absolute amplitudes of a group — the quantity the
claim's wording ("mean absolute spike amplitude") describes.  Comparison
definition following the claim, not the source: the source computes the
absolute value of the mean instead (`.amplitude.mean().abs()`). -/
def meanAbsAmplitude (rows : List SpikeRow) : ℚ :=
  ((rows.map (fun r => |r.amplitude|)).sum) / (rows.length : ℚ)

/-- The keep-electrode candidates as the claim words them: tags whose
mean absolute amplitude exceeds 0.8 times the maximum such mean.
Comparison definition following the claim, not the source. -/
def claimKeepCandidates (rows : List SpikeRow) : List String :=
  (groupTags rows).filter (fun t =>
    decide ((8/10) * (((groupTags rows).map
      (fun u => meanAbsAmplitude (groupOf rows u))).foldl max 0) <
      meanAbsAmplitude (groupOf rows t)))

/-- The Keep-Electrode Selector as the claim words it: the alphabetically
first tag among `claimKeepCandidates`.  Comparison definition following
the claim, not the source. -/
def choose_keep_electrode_claim (rows : List SpikeRow) : Option String :=
  (List.insertionSort strLeR (claimKeepCandidates rows)).head?

/-- The guarded region of `tag_conductance_spikes`
(`src/pymea/pymea.py:463-467`): `pd.concat([event.sort('electrode') for
event in cofiring_events(sub_df, 0.0012)])`.  `pd.concat` of an empty list
raises `ValueError`; with at least one event it returns the concatenation
of the electrode-sorted events. -/
def pair_cofiring (sub : List SpikeRow) : Except PyErr (List SpikeRow) :=
  let evs := cofiring_events sub (12/10000)
  if evs.isEmpty then .error .valueError
  else .ok ((evs.map sortByElectrode).flatten)

/-- One iteration of the pair loop of `tag_conductance_spikes`
(`src/pymea/pymea.py:460-475`), returning the row labels this pair wants
flagged: the bare `except: continue` around the cofiring computation maps
a failure to the empty contribution, the classifier gate and
`choose_keep_electrode` (outside the `try`) run on success, and an
`IndexError` from choosing among no candidates propagates. -/
def pair_step (sub : List SpikeRow) : Except PyErr (List Nat) :=
  match pair_cofiring sub with
  | .error _ => .ok []
  | .ok cofiring =>
    if conductance_cond cofiring then
      match choose_keep_electrode cofiring with
      | none => .error .indexError
      | some keep =>
        .ok ((cofiring.filter (fun r => r.electrode != keep)).map (fun r => r.idx))
    else .ok []

/-- `itertools.combinations(tags, 2)`. -/
def combinations2 : List α → List (α × α)
  | [] => []
  | x :: xs => (xs.map (fun y => (x, y))) ++ combinations2 xs

/-- `[tag for tag in spikes if not tag.startswith('analog')]` where
`spikes = MEASpikeDict(df)` iterates the (sorted) groupby keys. -/
def nonAnalogTags (df : List SpikeRow) : List String :=
  (groupTags df).filter (fun t => !(pyStartsWith t "analog"))

/-- `pd.concat([spikes[e1], spikes[e2]])`: the merged frame of one
electrode pair. -/
def pairFrame (df : List SpikeRow) (p : String × String) : List SpikeRow :=
  groupOf df p.1 ++ groupOf df p.2

/-- The accumulation of `conductance_locs` over the pair loop of
`tag_conductance_spikes`, threading the possibility of an uncaught
exception. -/
def locsFold (df : List SpikeRow) (pairs : List (String × String)) :
    Except PyErr (List Nat) :=
  pairs.foldlM
    (fun acc p =>
      match pair_step (pairFrame df p) with
      | .error e => .error e
      | .ok l => .ok (acc ++ l)) []

/-- `df['conductance'] = False; df.ix[conductance_locs, 'conductance'] = True`:
every row whose label occurs among the recorded locations gets flag `true`,
all others `false`. -/
def applyFlags (df : List SpikeRow) (locs : List Nat) : List SpikeRow :=
  df.map (fun r => { r with conductance := decide (r.idx ∈ locs) })

/-- `tag_conductance_spikes(df)` (`src/pymea/pymea.py:444-479`). -/
def tag_conductance_spikes (df : List SpikeRow) : Except PyErr (List SpikeRow) :=
  match locsFold df (combinations2 (nonAnalogTags df)) with
  | .error e => .error e
  | .ok locs => .ok (applyFlags df locs)

/-! ### Waveform extraction (`extract_waveforms`, `src/pymea/pymea.py:283-290`) -/

/-- Python `int()` applied to a rational: truncation toward zero. -/
def pyInt (q : ℚ) : Int := if 0 ≤ q then ⌊q⌋ else -⌊-q⌋

/-- Normalisation of one bound of a Python slice `l[a:b]` against length
`n`: negative indices count from the end and are clamped at `0`,
nonnegative ones are clamped at `n`. -/
def pyNormIdx (n : Nat) (i : Int) : Nat :=
  if i < 0 then (i + n).toNat else min i.toNat n

/-- Python slice `l[a:b]` (as used by `series.iloc[x - span:x + span]`). -/
def pySlice (l : List α) (a b : Int) : List α :=
  (l.drop (pyNormIdx l.length a)).take (pyNormIdx l.length b - pyNormIdx l.length a)

/-- A pandas `Series` with rational index and values. -/
structure QSeries where
  index : List ℚ
  values : List ℚ
deriving DecidableEq

/-- `extract_waveforms(series, times, window_len)`
(`src/pymea/pymea.py:283-290`): `dt = series.index[1] - series.index[0]`
(an `IndexError` on series shorter than 2), `span = int(window_len/2/dt)`,
and one slice `series.iloc[x - span:x + span]` per spike time with
`x = int(t/dt)`. -/
def extract_waveforms (series : QSeries) (times : List ℚ) (window_len : ℚ) :
    Except PyErr (List (List ℚ)) :=
  match series.index with
  | i0 :: i1 :: _ =>
    let dt := i1 - i0
    let span := pyInt (window_len / 2 / dt)
    .ok (times.map (fun t =>
      let x := pyInt (t / dt)
      pySlice series.values (x - span) (x + span)))
  | _ => .error .indexError

/-- The index of a uniformly sampled series starting at 0:
`np.arange(n)/sample_rate`, i.e. `[0, dt, 2*dt, ...]`. -/
def uniformIndex (n : Nat) (dt : ℚ) : List ℚ :=
  (List.range n).map (fun k : ℕ => (k : ℚ) * dt)

/-! ### Signal conditioner (`bandpass_filter`, `src/pymea/pymea.py:504-530`)

`scipy.signal.butter` and `scipy.signal.filtfilt` are external to this
repository; they are modelled from their documented contracts: `butter`
rejects normalized critical frequencies outside `(0, 1)` and returns the
filter's coefficient vectors, `filtfilt` applies the linear filter
forward and backward and returns an output of the same shape as its
input.  The numerical coefficient values (irrational in general) are not
modelled; none of the verified properties depend on them. -/

/-- `Σ cᵢ·hᵢ` over the common length of the two lists: one step of the
direct-form difference equation. -/
def dotCoeffs (cs hist : List ℚ) : ℚ :=
  ((cs.zip hist).map (fun p => p.1 * p.2)).sum

/-- The tail-recursive worker of `lfilter`: `xpast`/`ypast` hold the
already-seen inputs and outputs, most recent first. -/
def lfilterAux (b ar : List ℚ) (xpast ypast : List ℚ) : List ℚ → List ℚ
  | [] => []
  | xn :: rest =>
    let xh := xn :: xpast
    let y := dotCoeffs b xh - dotCoeffs ar ypast
    y :: lfilterAux b ar xh (y :: ypast) rest

/-- Modelled from the spec: the external linear IIR filter
(`scipy.signal.lfilter` with `a₀ = 1`): `y[n] = Σ b[k]·x[n-k] − Σ_{k≥1}
a[k]·y[n-k]`; the output has one entry per input entry. -/
def lfilter (b a : List ℚ) (x : List ℚ) : List ℚ :=
  lfilterAux b a.tail [] [] x

/-- Modelled from the spec: the external zero-phase filter
`scipy.signal.filtfilt`: apply the filter, reverse, apply again, reverse;
the output has the same shape as the input (edge padding omitted, as no
verified property depends on the numeric values). -/
def filtfilt (b a x : List ℚ) : List ℚ :=
  (lfilter b a (lfilter b a x).reverse).reverse

/-- Modelled from the spec: the external `scipy.signal.butter(2, wns,
btype)` coefficient designer: it raises `ValueError` unless every
normalized critical frequency lies strictly between 0 and 1, and returns
the numerator/denominator coefficient vectors (`ntaps` entries each:
5 for a 2nd-order bandpass, 3 for a 2nd-order low/highpass); the numeric
coefficient values are abstracted to a normalized placeholder. -/
def butter (wns : List ℚ) (ntaps : Nat) : Except PyErr (List ℚ × List ℚ) :=
  if wns.all (fun w => decide (0 < w) && decide (w < 1)) then
    .ok (1 :: List.replicate (ntaps - 1) 0, 1 :: List.replicate (ntaps - 1) 0)
  else .error .valueError

/-- `bandpass_filter(series, low, high)` (`src/pymea/pymea.py:504-530`):
`dt` from the first two index entries (`IndexError` on shorter input),
Nyquist frequency `(1/dt)/2`, branch selection (`low < 0.1` ⇒ lowpass,
`high > 10000` ⇒ highpass, otherwise bandpass), and a filtered series
carrying the input's index. -/
def bandpass_filter (series : QSeries) (low high : ℚ) : Except PyErr QSeries :=
  match series.index with
  | i0 :: i1 :: _ =>
    let dt := i1 - i0
    let fs_nyquist := (1/dt)/2
    match (if low < 1/10 then butter [high/fs_nyquist] 3
           else if 10000 < high then butter [low/fs_nyquist] 3
           else butter [low/fs_nyquist, high/fs_nyquist] 5) with
    | .error e => .error e
    | .ok ba => .ok ⟨series.index, filtfilt ba.1 ba.2 series.values⟩
  | _ => .error .indexError

/-! ### Spike sub-clusterer (`sort_spikes`, `src/pymea/pymea.py:263-272`)

The per-electrode waveform extraction, PCA embedding and DBSCAN
clustering only produce the integer label array `db.labels_` (one label
per spike of the group); the numerical clustering itself is external
(`sklearn`) and is abstracted as an arbitrary labelling function
`labels : tag → position-within-group → label`.  The row update is
`self.spikes.loc[sdf.electrode.index, 'electrode'] =
sdf.electrode.str.cat(db.labels_.astype(str), sep='.')`. -/

/-- The rewritten electrode tag `"<original>.<label>"`. -/
def subTag (tag : String) (lab : Int) : String := tag ++ "." ++ toString lab

/-- `sort_spikes(spikes, ...)`: every row's electrode tag gains the
suffix of the cluster label its group position received; all other
columns are untouched. -/
def sort_spikes (spikes : List SpikeRow) (labels : String → Nat → Int) : List SpikeRow :=
  spikes.enum.map (fun ir =>
    { ir.2 with
      electrode := subTag ir.2.electrode
        (labels ir.2.electrode
          (((spikes.take ir.1).filter (fun s => s.electrode == ir.2.electrode)).length)) })

/-! ### `MEASpikeDict` (`src/pymea/pymea.py:152-248`) -/

/-- A pandas `DataFrame` of spikes: its column labels and its rows. -/
structure PFrame where
  cols : List String
  rows : List SpikeRow
deriving DecidableEq

/-- `MEASpikeDict(spike_table)`: holds the table; `spike_dict` and
`spike_order` are derived from `groupby('electrode')` (sorted group
keys, original row order within groups). -/
structure MEASpikeDict where
  spike_table : PFrame
deriving DecidableEq

/-- `self.spike_order`: the groupby keys in groupby (sorted) order. -/
def MEASpikeDict.spike_order (d : MEASpikeDict) : List String :=
  groupTags d.spike_table.rows

/-- A Python indexing key: an `int` or any other (string) key. -/
inductive PyKey where
  | int (i : Int)
  | str (s : String)

/-- Python list indexing `l[i]`: negative indices count from the end,
out-of-range indexing raises `IndexError`. -/
def pyListGet (l : List String) (i : Int) : Except PyErr String :=
  let j : Int := if i < 0 then i + l.length else i
  if j < 0 then .error .indexError
  else
    match l.get? j.toNat with
    | some t => .ok t
    | none => .error .indexError

/-- `MEASpikeDict.__getitem__` (`src/pymea/pymea.py:202-209`): an `int`
key indexes `spike_order` (an `IndexError` escapes the `except KeyError`
handler); any other key looks up `spike_dict`, and a missing key returns
`pd.DataFrame(columns=self.spike_table.columns)` — an empty frame with
the table's columns. -/
def MEASpikeDict.getitem (d : MEASpikeDict) (key : PyKey) : Except PyErr PFrame :=
  match key with
  | .int i =>
    match pyListGet d.spike_order i with
    | .error e => .error e
    | .ok tag => .ok ⟨d.spike_table.cols, groupOf d.spike_table.rows tag⟩
  | .str s =>
    if s ∈ d.spike_table.rows.map (fun r => r.electrode) then
      .ok ⟨d.spike_table.cols, groupOf d.spike_table.rows s⟩
    else
      .ok ⟨d.spike_table.cols, []⟩

/-! ### Concrete test inputs -/

/-- The C3 input: spikes at `1.000 (a)`, `1.0008 (b)`, `1.010 (a)`. -/
def dfC3 : List SpikeRow :=
  [⟨0, "a", 1, -10, -5, false⟩, ⟨1, "b", 1 + 8/10000, -9, -5, false⟩,
   ⟨2, "a", 101/100, -10, -5, false⟩]

/-- Two spikes of the same electrode, 0.1 ms apart. -/
def rowA0 : SpikeRow := ⟨0, "a", 0, -10, -5, false⟩

/-- Second spike of the same-electrode pair. -/
def rowA1 : SpikeRow := ⟨1, "a", 1/10000, -9, -5, false⟩

/-- A merged frame holding only the same-electrode pair. -/
def dfSame : List SpikeRow := [rowA0, rowA1]

/-- `k` synthetic cofiring events: event `j` has an `"a"` spike at `j`
seconds and a `"b"` spike 1 ms later; consecutive events are ~1 s apart. -/
def syntheticEvents (k : Nat) : List (SpikeRow × SpikeRow) :=
  (List.range k).map (fun j =>
    (⟨2*j, "a", (j : ℚ), -10, -5, false⟩, ⟨2*j+1, "b", (j : ℚ) + 1/1000, -9, -5, false⟩))

/-- The merged two-electrode frame of the rows of `syntheticEvents k`. -/
def syntheticFrame (k : Nat) : List SpikeRow :=
  ((syntheticEvents k).map (fun e => [e.1, e.2])).flatten

/-- The classifier input built from explicitly given events, each one
already a two-row electrode-sorted frame: the concatenation
`pd.concat([...])` of the events. -/
def eventsFrame (evs : List (SpikeRow × SpikeRow)) : List SpikeRow :=
  (evs.map (fun e => [e.1, e.2])).flatten

/-- The signed time difference between the two rows of an event. -/
def intraDiff (e : SpikeRow × SpikeRow) : ℚ := e.2.time - e.1.time

/-- The C4 counterexample frame: electrode `e1` has amplitudes `+10` and
`-10` (mean `0`, mean of absolute values `10`), electrode `e2` one spike
of amplitude `5`. -/
def dfC4mixed : List SpikeRow :=
  [⟨0, "e1", 0, 10, -5, false⟩, ⟨1, "e1", 1, -10, -5, false⟩, ⟨2, "e2", 2, 5, -5, false⟩]

/-- The C4 concrete frame with per-electrode amplitudes 10, 12, 9. -/
def dfC4plain : List SpikeRow :=
  [⟨0, "e1", 0, 10, -5, false⟩, ⟨1, "e2", 1, 12, -5, false⟩, ⟨2, "e3", 2, 9, -5, false⟩]

/-- Two isolated spikes on different electrodes, 1 s apart: their merged
frame has no cofiring events, so `pd.concat([])` raises. -/
def dfFar : List SpikeRow :=
  [⟨0, "a", 0, -10, -5, false⟩, ⟨1, "b", 1, -9, -5, false⟩]

/-- A concrete `MEASpikeDict` over the C3 table. -/
def mdC10 : MEASpikeDict :=
  ⟨⟨["electrode", "time", "amplitude", "threshold"], dfC3⟩⟩

/-! ## Order properties of the Python string comparison -/

theorem charListLeB_refl : ∀ as : List Char, charListLeB as as = true := by
  intro as
  induction as with
  | nil => rfl
  | cons a as ih => simp [charListLeB, ih]

theorem charListLeB_total :
    ∀ as bs : List Char, charListLeB as bs = true ∨ charListLeB bs as = true := by
  intro as
  induction as with
  | nil => intro bs; left; rfl
  | cons a as ih =>
    intro bs
    cases bs with
    | nil => right; rfl
    | cons b bs =>
      by_cases h1 : a.toNat < b.toNat
      · left; simp [charListLeB, h1]
      · by_cases h2 : b.toNat < a.toNat
        · right; simp [charListLeB, h2]
        · rcases ih bs with h | h
          · left; simp [charListLeB, h1, h2, h]
          · right; simp [charListLeB, h1, h2, h]

theorem charListLeB_trans :
    ∀ as bs cs : List Char, charListLeB as bs = true → charListLeB bs cs = true →
      charListLeB as cs = true := by
  intro as
  induction as with
  | nil => intro bs cs _ _; rfl
  | cons a as ih =>
    intro bs cs hab hbc
    cases bs with
    | nil => simp [charListLeB] at hab
    | cons b bs =>
      cases cs with
      | nil => simp [charListLeB] at hbc
      | cons c cs =>
        rcases Nat.lt_trichotomy a.toNat b.toNat with h1 | h1 | h1
        · rcases Nat.lt_trichotomy b.toNat c.toNat with h2 | h2 | h2
          · have hac : a.toNat < c.toNat := by omega
            simp [charListLeB, hac]
          · have hac : a.toNat < c.toNat := by omega
            simp [charListLeB, hac]
          · simp [charListLeB, (show ¬ b.toNat < c.toNat by omega), h2] at hbc
        · have hab' : charListLeB as bs = true := by
            simpa [charListLeB, (show ¬ a.toNat < b.toNat by omega),
              (show ¬ b.toNat < a.toNat by omega)] using hab
          rcases Nat.lt_trichotomy b.toNat c.toNat with h2 | h2 | h2
          · have hac : a.toNat < c.toNat := by omega
            simp [charListLeB, hac]
          · have hbc' : charListLeB bs cs = true := by
              simpa [charListLeB, (show ¬ b.toNat < c.toNat by omega),
                (show ¬ c.toNat < b.toNat by omega)] using hbc
            simp [charListLeB, (show ¬ a.toNat < c.toNat by omega),
              (show ¬ c.toNat < a.toNat by omega)]
            exact ih bs cs hab' hbc'
          · simp [charListLeB, (show ¬ b.toNat < c.toNat by omega), h2] at hbc
        · simp [charListLeB, (show ¬ a.toNat < b.toNat by omega), h1] at hab

instance strLeRTotal : IsTotal String strLeR :=
  ⟨fun a b => charListLeB_total a.data b.data⟩

instance strLeRTrans : IsTrans String strLeR :=
  ⟨fun a b c => charListLeB_trans a.data b.data c.data⟩

instance rowElecTotal : IsTotal SpikeRow (fun a b => strLeR a.electrode b.electrode) :=
  ⟨fun a b => charListLeB_total a.electrode.data b.electrode.data⟩

instance rowElecTrans : IsTrans SpikeRow (fun a b => strLeR a.electrode b.electrode) :=
  ⟨fun a b c => charListLeB_trans a.electrode.data b.electrode.data c.electrode.data⟩

/-- The head of an insertion-sorted string list is a member that is
`strLeR`-below every member. -/
theorem head_insertionSort_min (l : List String) (t : String)
    (h : (List.insertionSort strLeR l).head? = some t) :
    t ∈ l ∧ ∀ u ∈ l, strLeR t u := by
  have hperm := List.perm_insertionSort strLeR l
  have hsorted := List.sorted_insertionSort strLeR l
  cases hs : List.insertionSort strLeR l with
  | nil => rw [hs] at h; simp at h
  | cons x rest =>
    rw [hs] at h hperm hsorted
    simp only [List.head?_cons, Option.some.injEq] at h
    subst h
    constructor
    · exact hperm.mem_iff.mp (List.mem_cons_self x rest)
    · intro u hu
      have hu' : u ∈ x :: rest := hperm.mem_iff.mpr hu
      rcases List.mem_cons.mp hu' with h' | hu''
      · rw [h']
        exact charListLeB_refl x.data
      · exact List.rel_of_sorted_cons hsorted u hu''

/-! ## C2 and C3: the cofiring event detector -/

/-- C2 (amended): every run retained by `cofiring_events` consists of
exactly two spikes — but nothing constrains their electrodes. -/
theorem C2_events_are_pairs (df : List SpikeRow) (ms : ℚ) (ev : List SpikeRow)
    (h : ev ∈ cofiring_events df ms) : ev.length = 2 := by
  have := (List.mem_filter.mp h).2
  simpa using this

/-- C2 witness: the amended theorem applied to a concrete retained event. -/
theorem C2_events_are_pairs_witness :
    [rowA0, rowA1] ∈ cofiring_events dfSame (5/10000) ∧
      ([rowA0, rowA1] : List SpikeRow).length = 2 :=
  ⟨by decide, C2_events_are_pairs dfSame (5/10000) [rowA0, rowA1] (by decide)⟩

/-- C2 counterexample: `cofiring_events` returns a maximal run of exactly
two spikes even when both come from the same electrode — here the run
`[rowA0, rowA1]` with both rows on electrode `"a"` is returned, refuting
"one spike per electrode" and "a maximal run of exactly two spikes from
the same electrode is never returned". -/
theorem C2_counterexample :
    cofiring_events dfSame (5/10000) = [[rowA0, rowA1]] ∧
      rowA0.electrode = rowA1.electrode := by decide

/-- C3: on spike times `1.000 (a)`, `1.0008 (b)`, `1.010 (a)` with
`min_sep = 0.0012` the detector returns exactly one event, made of the
first two spikes; in general a run of the gap-partition is retained
exactly when its length is 2 (runs of length 1 or ≥ 3 are discarded). -/
theorem C3_concrete_event_and_run_retention :
    cofiring_events dfC3 (12/10000) =
      [[⟨0, "a", 1, -10, -5, false⟩, ⟨1, "b", 1 + 8/10000, -9, -5, false⟩]] ∧
    ∀ (df : List SpikeRow) (ms : ℚ) (run : List SpikeRow),
      run ∈ cofiring_events df ms ↔
        (run ∈ groupRuns ms (sortByTime df) ∧ run.length = 2) := by
  constructor
  · decide
  · intro df ms run
    simp [cofiring_events, List.mem_filter]

/-! ## C9: the spike sub-clusterer is a pure re-tagging -/

/-- C9: sub-clustering neither creates nor destroys spikes: the output
table has the same number of rows, every row keeps its `time`,
`amplitude`, `threshold` (and row label and flag), and only the electrode
tag changes, to `"<original>.<label>"` for some integer cluster label. -/
theorem C9_sort_spikes_frame_condition (spikes : List SpikeRow)
    (labels : String → Nat → Int) :
    (sort_spikes spikes labels).length = spikes.length ∧
    ∀ k : Nat,
      ((sort_spikes spikes labels)[k]?).map (fun r => r.time) =
        ((spikes[k]?).map (fun r => r.time)) ∧
      ((sort_spikes spikes labels)[k]?).map (fun r => r.amplitude) =
        ((spikes[k]?).map (fun r => r.amplitude)) ∧
      ((sort_spikes spikes labels)[k]?).map (fun r => r.threshold) =
        ((spikes[k]?).map (fun r => r.threshold)) ∧
      ((sort_spikes spikes labels)[k]?).map (fun r => r.idx) =
        ((spikes[k]?).map (fun r => r.idx)) ∧
      ((sort_spikes spikes labels)[k]?).map (fun r => r.conductance) =
        ((spikes[k]?).map (fun r => r.conductance)) ∧
      ∃ lab : Int, ((sort_spikes spikes labels)[k]?).map (fun r => r.electrode) =
        ((spikes[k]?).map (fun r => r.electrode ++ "." ++ toString lab)) := by
  constructor
  · simp [sort_spikes]
  · intro k
    cases h : spikes[k]? with
    | none =>
      have hlen : spikes.length ≤ k := List.getElem?_eq_none_iff.mp h
      have h2 : (sort_spikes spikes labels)[k]? = none := by
        apply List.getElem?_eq_none
        simp only [sort_spikes, List.length_map, List.enum_length]
        exact hlen
      exact ⟨by rw [h2], by rw [h2], by rw [h2], by rw [h2], by rw [h2], 0,
        by rw [h2]; rfl⟩
    | some r =>
      have h2 : (sort_spikes spikes labels)[k]? = some { r with electrode := subTag r.electrode (labels r.electrode (((spikes.take k).filter (fun s => s.electrode == r.electrode)).length)) } := by
        simp [sort_spikes, List.getElem?_map, List.getElem?_enum, h]
      refine ⟨?_, ?_, ?_, ?_, ?_, labels r.electrode (((spikes.take k).filter (fun s => s.electrode == r.electrode)).length), ?_⟩ <;>
        rw [h2] <;> rfl

/-! ## C10: `MEASpikeDict.__getitem__` error handling -/

/-- C10: indexing with a string key that is not a present electrode tag
does not raise — it returns an empty frame with the table's columns;
integer indexing past the end is not caught and raises `IndexError`. -/
theorem C10_getitem_missing_key_empty_frame (d : MEASpikeDict) (s : String) (i : Int)
    (hs : s ∉ d.spike_table.rows.map (fun r => r.electrode))
    (hi : (d.spike_order.length : Int) ≤ i) :
    MEASpikeDict.getitem d (.str s) = .ok ⟨d.spike_table.cols, []⟩ ∧
      MEASpikeDict.getitem d (.int i) = .error .indexError := by
  constructor
  · simp [MEASpikeDict.getitem, hs]
  · have h0 : ¬ i < 0 := by omega
    have hnone : (d.spike_order)[i.toNat]? = none := by
      apply List.getElem?_eq_none
      omega
    simp [MEASpikeDict.getitem, pyListGet, h0, hnone]

/-! ## C7: waveform window lengths -/

theorem pyNormIdx_sub_le (n : Nat) (a b : Int) (hab : a ≤ b) :
    pyNormIdx n b - pyNormIdx n a ≤ (b - a).toNat := by
  unfold pyNormIdx
  split_ifs <;> omega

theorem pyNormIdx_of_nonneg_le (n : Nat) (i : Int) (h0 : 0 ≤ i) (hn : i ≤ n) :
    pyNormIdx n i = i.toNat := by
  unfold pyNormIdx
  split_ifs <;> omega

theorem pySlice_length (l : List α) (a b : Int) :
    (pySlice l a b).length =
      min (pyNormIdx l.length b - pyNormIdx l.length a)
        (l.length - pyNormIdx l.length a) := by
  simp [pySlice]

theorem uniformIndex_two (n : Nat) (dt : ℚ) (hn : 2 ≤ n) :
    ∃ rest, uniformIndex n dt = 0 :: dt :: rest := by
  obtain ⟨m, rfl⟩ : ∃ m, n = m + 2 := ⟨n - 2, by omega⟩
  refine ⟨(List.range m).map (fun k : ℕ => ((k : ℚ) + 2) * dt), ?_⟩
  unfold uniformIndex
  rw [show m + 2 = (m+1)+1 from rfl, List.range_succ_eq_map, List.map_cons,
    List.cons.injEq, List.range_succ_eq_map, List.map_cons, List.map_map,
    List.map_cons, List.cons.injEq, List.map_map]
  refine ⟨by norm_num, by norm_num, ?_⟩
  apply List.map_congr_left
  intro k _
  simp only [Function.comp_apply]
  push_cast
  ring

/-- C7: over a uniformly sampled series of `n ≥ 2` samples with sampling
interval `dt`, every extracted waveform has at most
`2·⌊window_len/(2·dt)⌋` samples, and exactly that many whenever the
spike time is at least `window_len/2` away from both ends of the series
(`0` and `(n-1)·dt`). -/
theorem C7_waveform_window_length (n : Nat) (dt wl : ℚ) (vals times : List ℚ)
    (ws : List (List ℚ))
    (hn : 2 ≤ n) (hdt : 0 < dt) (hwl : 0 < wl) (hvals : vals.length = n)
    (hw : extract_waveforms ⟨uniformIndex n dt, vals⟩ times wl = .ok ws) :
    (∀ w ∈ ws, w.length ≤ 2 * (⌊wl / (2 * dt)⌋).toNat) ∧
    (∀ (k : Nat) (t : ℚ), times[k]? = some t →
      wl / 2 ≤ t → t ≤ ((n : ℚ) - 1) * dt - wl / 2 →
      ∃ w, ws[k]? = some w ∧ w.length = 2 * (⌊wl / (2 * dt)⌋).toNat) := by
  obtain ⟨rest, hidx⟩ := uniformIndex_two n dt hn
  rw [hidx] at hw
  simp only [extract_waveforms, sub_zero, Except.ok.injEq] at hw
  subst hw
  have hdiv : wl / 2 / dt = wl / (2 * dt) := div_div wl 2 dt
  have hpos : (0:ℚ) ≤ wl / (2 * dt) := by positivity
  have hspan : pyInt (wl / 2 / dt) = ⌊wl / (2 * dt)⌋ := by
    rw [hdiv]
    simp [pyInt, hpos]
  have hspan0 : 0 ≤ ⌊wl / (2 * dt)⌋ := Int.floor_nonneg.mpr hpos
  constructor
  · intro w hwmem
    rw [List.mem_map] at hwmem
    obtain ⟨t, _, rfl⟩ := hwmem
    rw [pySlice_length]
    have hle : pyInt (t / dt) - pyInt (wl / 2 / dt) ≤
        pyInt (t / dt) + pyInt (wl / 2 / dt) := by
      rw [hspan]; omega
    have hb := pyNormIdx_sub_le vals.length
      (pyInt (t / dt) - pyInt (wl / 2 / dt)) (pyInt (t / dt) + pyInt (wl / 2 / dt)) hle
    rw [hspan] at hb ⊢
    omega
  · intro k t htk h1 h2
    refine ⟨pySlice vals (pyInt (t / dt) - pyInt (wl / 2 / dt))
      (pyInt (t / dt) + pyInt (wl / 2 / dt)), ?_, ?_⟩
    · simp [List.getElem?_map, htk]
    · have ht0 : (0:ℚ) ≤ t := le_trans (by positivity) h1
      have hx : pyInt (t / dt) = ⌊t / dt⌋ := by
        simp [pyInt, div_nonneg ht0 hdt.le]
      have hx1 : ⌊wl / (2 * dt)⌋ ≤ ⌊t / dt⌋ := by
        apply Int.floor_le_floor
        rw [← hdiv]
        exact (div_le_div_iff_of_pos_right hdt).mpr h1
      have hceil : ⌊((n:ℚ) - 1) - wl / (2 * dt)⌋ = ((n:Int) - 1) - ⌈wl / (2 * dt)⌉ := by
        have hcast : ((n:ℚ) - 1) - wl / (2 * dt) =
            (((n:Int) - 1 : Int) : ℚ) + (-(wl / (2 * dt))) := by
          push_cast; ring
        rw [hcast, Int.floor_int_add, Int.floor_neg]
        ring
      have hq : t / dt ≤ ((n:ℚ) - 1) - wl / (2 * dt) := by
        have h2' : t / dt ≤ (((n:ℚ) - 1) * dt - wl / 2) / dt :=
          (div_le_div_iff_of_pos_right hdt).mpr h2
        rw [sub_div, mul_div_cancel_right₀ _ (ne_of_gt hdt), hdiv] at h2'
        exact h2'
      have hx2 : ⌊t / dt⌋ + ⌊wl / (2 * dt)⌋ ≤ (n : Int) - 1 := by
        have hfl := Int.floor_le_floor hq
        rw [hceil] at hfl
        have := Int.floor_le_ceil (wl / (2 * dt))
        omega
      rw [hx, hspan, pySlice_length, hvals]
      rw [pyNormIdx_of_nonneg_le n (⌊t / dt⌋ - ⌊wl / (2 * dt)⌋) (by omega) (by omega),
          pyNormIdx_of_nonneg_le n (⌊t / dt⌋ + ⌊wl / (2 * dt)⌋) (by omega) (by omega)]
      omega

/-! ## C8: the signal conditioner preserves length and index -/

theorem lfilterAux_length (b ar : List ℚ) (x : List ℚ) :
    ∀ (xpast ypast : List ℚ), (lfilterAux b ar xpast ypast x).length = x.length := by
  induction x with
  | nil => intro xpast ypast; rfl
  | cons xn rest ih =>
    intro xpast ypast
    simp only [lfilterAux, List.length_cons, ih]

theorem filtfilt_length (b a x : List ℚ) : (filtfilt b a x).length = x.length := by
  simp [filtfilt, lfilter, lfilterAux_length]

/-- C8: for every input series of length at least 2 (with increasing time
index) and every valid frequency band (positive edge frequencies strictly
below the Nyquist frequency `(1/dt)/2`), the conditioner returns a series
with the identical time index and the same number of values as the
input. -/
theorem C8_bandpass_same_length_and_index (series : QSeries) (low high i0 i1 : ℚ)
    (rest : List ℚ) (hidx : series.index = i0 :: i1 :: rest) (hlt : i0 < i1)
    (hl : 0 < low) (hh : 0 < high)
    (hln : low < (1/(i1 - i0))/2) (hhn : high < (1/(i1 - i0))/2) :
    ∃ out, bandpass_filter series low high = .ok out ∧
      out.index = series.index ∧ out.values.length = series.values.length := by
  have hdt : 0 < i1 - i0 := by linarith
  have hnyq : (0:ℚ) < (1/(i1 - i0))/2 := by positivity
  have h1 : (0:ℚ) < high / ((1/(i1 - i0))/2) := div_pos hh hnyq
  have h2 : high / ((1/(i1 - i0))/2) < 1 := (div_lt_one hnyq).mpr hhn
  have h3 : (0:ℚ) < low / ((1/(i1 - i0))/2) := div_pos hl hnyq
  have h4 : low / ((1/(i1 - i0))/2) < 1 := (div_lt_one hnyq).mpr hln
  unfold bandpass_filter
  rw [hidx]
  dsimp only
  split_ifs with hb1 hb2
  · simp only [butter, List.all_cons, List.all_nil, h1, h2, decide_eq_true,
      decide_eq_true_eq, Bool.and_true, Bool.and_self, if_pos]
    exact ⟨_, rfl, rfl, filtfilt_length _ _ _⟩
  · simp only [butter, List.all_cons, List.all_nil, h3, h4, decide_eq_true,
      decide_eq_true_eq, Bool.and_true, Bool.and_self, if_pos]
    exact ⟨_, rfl, rfl, filtfilt_length _ _ _⟩
  · simp only [butter, List.all_cons, List.all_nil, h1, h2, h3, h4, decide_eq_true,
      decide_eq_true_eq, Bool.and_true, Bool.and_self, if_pos]
    exact ⟨_, rfl, rfl, filtfilt_length _ _ _⟩

/-! ## C1: the conductance pair classifier -/

theorem sampleVar_le_of_bounds (ds : List ℚ) (lo hi : ℚ) (h2 : 2 ≤ ds.length)
    (hb : ∀ x ∈ ds, lo ≤ x ∧ x ≤ hi) :
    sampleVar ds ≤ (ds.length : ℚ) * (hi - lo)^2 / ((ds.length : ℚ) - 1) := by
  have hn : (2:ℚ) ≤ (ds.length : ℚ) := by exact_mod_cast h2
  have hnpos : (0:ℚ) < (ds.length : ℚ) := by linarith
  have hn1 : (0:ℚ) < (ds.length : ℚ) - 1 := by linarith
  simp only [sampleVar]
  have hsum_lo : (ds.length : ℚ) * lo ≤ ds.sum := by
    have := List.card_nsmul_le_sum ds lo (fun x hx => (hb x hx).1)
    simpa [nsmul_eq_mul] using this
  have hsum_hi : ds.sum ≤ (ds.length : ℚ) * hi := by
    have := List.sum_le_card_nsmul ds hi (fun x hx => (hb x hx).2)
    simpa [nsmul_eq_mul] using this
  have hm_lo : lo ≤ ds.sum / (ds.length : ℚ) := by
    rw [le_div_iff₀ hnpos]
    linarith
  have hm_hi : ds.sum / (ds.length : ℚ) ≤ hi := by
    rw [div_le_iff₀ hnpos]
    linarith
  have hS : (ds.map (fun x => (x - ds.sum / (ds.length : ℚ))^2)).sum ≤
      (ds.length : ℚ) * (hi - lo)^2 := by
    have hterm : ∀ y ∈ ds.map (fun x => (x - ds.sum / (ds.length : ℚ))^2),
        y ≤ (hi - lo)^2 := by
      intro y hy
      obtain ⟨x, hx, rfl⟩ := List.mem_map.mp hy
      have hxl := (hb x hx).1
      have hxh := (hb x hx).2
      apply sq_le_sq'
      · linarith
      · linarith
    have := List.sum_le_card_nsmul (ds.map (fun x => (x - ds.sum / (ds.length : ℚ))^2))
      ((hi - lo)^2) hterm
    simpa [nsmul_eq_mul] using this
  exact (div_le_div_iff_of_pos_right hn1).mpr hS

theorem eventsFrame_cons (e : SpikeRow × SpikeRow) (rest : List (SpikeRow × SpikeRow)) :
    eventsFrame (e :: rest) = e.1 :: e.2 :: eventsFrame rest := rfl

theorem eventsFrame_length (evs : List (SpikeRow × SpikeRow)) :
    (eventsFrame evs).length = 2 * evs.length := by
  induction evs with
  | nil => rfl
  | cons e rest ih =>
    rw [eventsFrame_cons, List.length_cons, List.length_cons, ih, List.length_cons]
    ring

/-- Filtering the time differences of a concatenated event sequence by
`< 0.0012` keeps exactly the intra-event differences, provided every
intra-event difference is below 0.0012 and consecutive events are at
least 0.0012 apart. -/
theorem timeDiffs_eventsFrame_filter (evs : List (SpikeRow × SpikeRow))
    (hintra : ∀ e ∈ evs, intraDiff e < 12/10000)
    (hgap : ∀ p ∈ evs.zip evs.tail, (12:ℚ)/10000 ≤ p.2.1.time - p.1.2.time) :
    (timeDiffs (eventsFrame evs)).filter (fun d => decide (d < 12/10000)) =
      evs.map intraDiff := by
  induction evs with
  | nil => rfl
  | cons e rest ih =>
    cases rest with
    | nil =>
      have h1 : intraDiff e < 12/10000 := hintra e (List.mem_cons_self _ _)
      have ht : timeDiffs (eventsFrame [e]) = [intraDiff e] := rfl
      simp [ht, List.filter_cons, h1]
    | cons f rest2 =>
      have h1 : intraDiff e < 12/10000 := hintra e (List.mem_cons_self _ _)
      have h2 : (12:ℚ)/10000 ≤ f.1.time - e.2.time :=
        hgap (e, f) (List.mem_cons_self _ _)
      have h2' : ¬ (f.1.time - e.2.time < 12/10000) := not_lt.mpr h2
      have ih' := ih (fun x hx => hintra x (List.mem_cons_of_mem _ hx))
        (fun p hp => hgap p (List.mem_cons_of_mem _ hp))
      have ht : timeDiffs (eventsFrame (e :: f :: rest2)) =
          intraDiff e :: (f.1.time - e.2.time) ::
            timeDiffs (eventsFrame (f :: rest2)) := rfl
      simp only [ht, List.filter_cons, h1, h2', decide_eq_true_eq, if_pos, if_neg,
        decide_eq_false, List.map_cons]
      simp [ih']

/-- C1 (amended): the pair classifier fires iff the concatenated cofiring
frame has more than 30 rows (i.e. more than 15 two-spike events) and the
sample standard deviation of the time differences below 0.0012 s is below
0.3 ms (encoded on the variance, with fewer than two differences giving
`NaN < 0.3 = False`); consequently 31 tight events (time differences
within ±0.1 ms of 1 ms, events ≥ 1.2 ms apart) are classified as an
artifact, and 15 events are not. -/
theorem C1_classifier_row_count_boundary :
    (∀ cof : List SpikeRow, conductance_cond cof = true ↔
      (30 < cof.length ∧
       2 ≤ ((timeDiffs cof).filter (fun d => decide (d < 12/10000))).length ∧
       sampleVar ((timeDiffs cof).filter (fun d => decide (d < 12/10000))) < (3/10000)^2)) ∧
    (∀ evs : List (SpikeRow × SpikeRow), evs.length = 31 →
      (∀ e ∈ evs, 9/10000 ≤ intraDiff e ∧ intraDiff e ≤ 11/10000) →
      (∀ p ∈ evs.zip evs.tail, (12:ℚ)/10000 ≤ p.2.1.time - p.1.2.time) →
      conductance_cond (eventsFrame evs) = true) ∧
    (∀ evs : List (SpikeRow × SpikeRow), evs.length = 15 →
      conductance_cond (eventsFrame evs) = false) := by
  refine ⟨?_, ?_, ?_⟩
  · intro cof
    simp [conductance_cond, stdBelow, and_assoc]
  · intro evs hlen hb hgap
    have hlen2 : (eventsFrame evs).length = 62 := by
      rw [eventsFrame_length, hlen]
    have hfd : (timeDiffs (eventsFrame evs)).filter (fun d => decide (d < 12/10000)) =
        evs.map intraDiff :=
      timeDiffs_eventsFrame_filter evs
        (fun e he => lt_of_le_of_lt (hb e he).2 (by norm_num)) hgap
    have hdlen : (evs.map intraDiff).length = 31 := by simp [hlen]
    have hvar := sampleVar_le_of_bounds (evs.map intraDiff) (9/10000) (11/10000)
      (by rw [hdlen]; norm_num)
      (fun x hx => by obtain ⟨e, he, rfl⟩ := List.mem_map.mp hx; exact hb e he)
    rw [hdlen] at hvar
    have hlt : sampleVar (evs.map intraDiff) < (3/10000 : ℚ)^2 := by
      have hnum : ((31:ℕ) : ℚ) * (11/10000 - 9/10000)^2 / (((31:ℕ) : ℚ) - 1) <
          (3/10000)^2 := by norm_num
      linarith
    simp [conductance_cond, stdBelow, hlen2, hfd, hdlen, hlt]
  · intro evs hlen
    have hlen2 : (eventsFrame evs).length = 30 := by
      rw [eventsFrame_length, hlen]
    simp [conductance_cond, hlen2]

/-- C1 counterexample: 29 synthetic cofiring events whose intra-event
time differences are all exactly 1 ms (within ±0.1 ms of 0.001 s) — the
cofiring detector produces these events from the merged frame, and the
classifier marks the pair as an artifact, because the code compares the
concatenated row count (58) with 30, not the event count (29).  This
refutes "for every such input of 29 events it is not [an artifact]". -/
theorem C1_counterexample :
    (syntheticEvents 29).length = 29 ∧
    (∀ e ∈ syntheticEvents 29, 9/10000 ≤ intraDiff e ∧ intraDiff e ≤ 11/10000) ∧
    pair_cofiring (syntheticFrame 29) = .ok (eventsFrame (syntheticEvents 29)) ∧
    conductance_cond (eventsFrame (syntheticEvents 29)) = true := by decide

/-- C1 witness: the amended theorem applied to 31 and 15 concrete
synthetic events. -/
theorem C1_classifier_row_count_boundary_witness :
    conductance_cond (eventsFrame (syntheticEvents 31)) = true ∧
    conductance_cond (eventsFrame (syntheticEvents 15)) = false :=
  ⟨C1_classifier_row_count_boundary.2.1 (syntheticEvents 31) (by decide) (by decide)
      (by decide),
   C1_classifier_row_count_boundary.2.2 (syntheticEvents 15) (by decide)⟩

/-! ## C4: the keep-electrode selector -/

/-- C4 counterexample: electrode `e1` has amplitudes `+10` and `-10`
(mean absolute amplitude 10), electrode `e2` a single spike of amplitude
`5`.  Under the claim's rule ("mean absolute spike amplitude") the
candidates are `{e1}` and the result would be `e1`; the code takes the
absolute value of the mean (`.mean().abs()`), giving `e1 ↦ 0`, `e2 ↦ 5`,
candidates `{e2}` and result `e2`. -/
theorem C4_counterexample :
    choose_keep_electrode dfC4mixed = some "e2" ∧
    choose_keep_electrode_claim dfC4mixed = some "e1" := by decide

/-- C4 (amended): the selector returns the alphabetically first tag among
the electrodes whose absolute mean amplitude (`|mean|`, not mean of
absolute values) exceeds 0.8 times the maximum such value; for
per-electrode amplitudes `{e1: 10, e2: 12, e3: 9}` the candidates are
`{e1, e2}` and the result is `e1`. -/
theorem C4_keep_electrode_alphabetical_min :
    (∀ (rows : List SpikeRow) (t : String), choose_keep_electrode rows = some t →
      t ∈ keepCandidates rows ∧ ∀ u ∈ keepCandidates rows, strLeR t u) ∧
    keepCandidates dfC4plain = ["e1", "e2"] ∧
    choose_keep_electrode dfC4plain = some "e1" := by
  refine ⟨?_, by decide, by decide⟩
  intro rows t h
  exact head_insertionSort_min (keepCandidates rows) t h

/-- C4 witness: the amended theorem applied to the concrete frame. -/
theorem C4_keep_electrode_alphabetical_min_witness :
    "e1" ∈ keepCandidates dfC4plain ∧ ∀ u ∈ keepCandidates dfC4plain, strLeR "e1" u :=
  C4_keep_electrode_alphabetical_min.1 dfC4plain "e1" (by decide)

/-! ## C5: pair failures are silent -/

/-- Folding the pair loop over a list containing a pair whose step
contributes nothing gives the same result as folding without it. -/
theorem foldlM_pairs_skip (f : List Nat → (String × String) → Except PyErr (List Nat))
    (p : String × String) (hstep : ∀ acc, f acc p = .ok acc) :
    ∀ (l1 l2 : List (String × String)) (init : List Nat),
      (l1 ++ p :: l2).foldlM f init = (l1 ++ l2).foldlM f init := by
  intro l1
  induction l1 with
  | nil =>
    intro l2 init
    simp only [List.nil_append, List.foldlM_cons, hstep]
    rfl
  | cons q l1 ih =>
    intro l2 init
    simp only [List.cons_append, List.foldlM_cons]
    cases h : f init q with
    | error e => simp [Bind.bind, Except.bind]
    | ok acc =>
      simp only [Bind.bind, Except.bind]
      exact ih l2 acc

/-- C5: any failure inside a pair's cofiring computation is handled
silently: the bare `except: continue` turns it into an empty
contribution (no rows of that pair are flagged on its account), and the
tagging pass over the remaining pairs is unaffected — the pair loop with
the failing pair present accumulates exactly the same flag locations as
with that pair removed. -/
theorem C5_pair_failure_is_silent :
    (∀ (sub : List SpikeRow) (e : PyErr), pair_cofiring sub = .error e →
      pair_step sub = .ok []) ∧
    (∀ (df : List SpikeRow) (p : String × String) (e : PyErr)
      (l1 l2 : List (String × String)), pair_cofiring (pairFrame df p) = .error e →
      locsFold df (l1 ++ p :: l2) = locsFold df (l1 ++ l2)) := by
  constructor
  · intro sub e h
    simp [pair_step, h]
  · intro df p e l1 l2 h
    apply foldlM_pairs_skip
    intro acc
    simp [pair_step, h]

/-- C5 witness: the theorem applied to a pair with no cofiring events
(`pd.concat([])` raises `ValueError`). -/
theorem C5_pair_failure_is_silent_witness :
    pair_step (pairFrame dfFar ("a", "b")) = .ok [] ∧
    locsFold dfFar (([] : List (String × String)) ++ ("a", "b") :: []) =
      locsFold dfFar (([] : List (String × String)) ++ []) :=
  ⟨C5_pair_failure_is_silent.1 (pairFrame dfFar ("a", "b")) .valueError (by decide),
   C5_pair_failure_is_silent.2 dfFar ("a", "b") .valueError [] [] (by decide)⟩

/-! ## C6: congruence of the pipeline under flag-only row updates

The tagging computation reads only the `electrode`, `time`, `amplitude`
and `idx` columns; the following lemmas show each pipeline stage is
unchanged when the rows are mapped by any function that preserves those
columns (such as the final conductance-flag write). -/

theorem map_proj_map {β : Type} (f : SpikeRow → SpikeRow) (g : SpikeRow → β)
    (hfg : ∀ r, g (f r) = g r) (l : List SpikeRow) :
    (l.map f).map g = l.map g := by
  rw [List.map_map]
  apply List.map_congr_left
  intro r _
  exact hfg r

theorem orderedInsert_time_map (f : SpikeRow → SpikeRow)
    (hft : ∀ r, (f r).time = r.time) (x : SpikeRow) (l : List SpikeRow) :
    List.orderedInsert (fun a b : SpikeRow => a.time ≤ b.time) (f x) (l.map f) =
      (List.orderedInsert (fun a b : SpikeRow => a.time ≤ b.time) x l).map f := by
  induction l with
  | nil => rfl
  | cons y l ih =>
    simp only [List.map_cons, List.orderedInsert, hft]
    split_ifs
    · simp
    · simp only [List.map_cons, ih]

theorem sortByTime_map (f : SpikeRow → SpikeRow)
    (hft : ∀ r, (f r).time = r.time) (l : List SpikeRow) :
    sortByTime (l.map f) = (sortByTime l).map f := by
  induction l with
  | nil => rfl
  | cons x l ih =>
    simp only [sortByTime, List.insertionSort, List.map_cons] at ih ⊢
    rw [ih, orderedInsert_time_map f hft]

theorem orderedInsert_elec_map (f : SpikeRow → SpikeRow)
    (hfe : ∀ r, (f r).electrode = r.electrode) (x : SpikeRow) (l : List SpikeRow) :
    List.orderedInsert (fun a b : SpikeRow => strLeR a.electrode b.electrode) (f x)
        (l.map f) =
      (List.orderedInsert (fun a b : SpikeRow => strLeR a.electrode b.electrode) x l).map f := by
  induction l with
  | nil => rfl
  | cons y l ih =>
    simp only [List.map_cons, List.orderedInsert, hfe]
    split_ifs
    · simp
    · simp only [List.map_cons, ih]

theorem sortByElectrode_map (f : SpikeRow → SpikeRow)
    (hfe : ∀ r, (f r).electrode = r.electrode) (l : List SpikeRow) :
    sortByElectrode (l.map f) = (sortByElectrode l).map f := by
  induction l with
  | nil => rfl
  | cons x l ih =>
    simp only [sortByElectrode, List.insertionSort, List.map_cons] at ih ⊢
    rw [ih, orderedInsert_elec_map f hfe]

theorem groupRunsAux_map (f : SpikeRow → SpikeRow)
    (hft : ∀ r, (f r).time = r.time) (ms : ℚ) (rest : List SpikeRow) :
    ∀ (prev : SpikeRow) (cur : List SpikeRow),
      groupRunsAux ms (f prev) (cur.map f) (rest.map f) =
        (groupRunsAux ms prev cur rest).map (List.map f) := by
  induction rest with
  | nil =>
    intro prev cur
    simp [groupRunsAux, List.map_reverse]
  | cons r rest ih =>
    intro prev cur
    simp only [List.map_cons, groupRunsAux, hft]
    split_ifs
    · rw [show [f r] = [r].map f from rfl, ih]
      simp [List.map_reverse]
    · rw [show f r :: cur.map f = (r :: cur).map f from rfl, ih]

theorem groupRuns_map (f : SpikeRow → SpikeRow)
    (hft : ∀ r, (f r).time = r.time) (ms : ℚ) (l : List SpikeRow) :
    groupRuns ms (l.map f) = (groupRuns ms l).map (List.map f) := by
  cases l with
  | nil => rfl
  | cons r rest =>
    simp only [List.map_cons, groupRuns]
    rw [show [f r] = [r].map f from rfl, groupRunsAux_map f hft]

theorem cofiring_events_map (f : SpikeRow → SpikeRow)
    (hft : ∀ r, (f r).time = r.time) (df : List SpikeRow) (ms : ℚ) :
    cofiring_events (df.map f) ms = (cofiring_events df ms).map (List.map f) := by
  unfold cofiring_events
  rw [sortByTime_map f hft, groupRuns_map f hft, List.filter_map]
  congr 1
  apply List.filter_congr
  intro run _
  simp

theorem timeDiffs_map (f : SpikeRow → SpikeRow)
    (hft : ∀ r, (f r).time = r.time) (l : List SpikeRow) :
    timeDiffs (l.map f) = timeDiffs l := by
  induction l with
  | nil => rfl
  | cons a l ih =>
    cases l with
    | nil => rfl
    | cons b l2 =>
      show ((f b).time - (f a).time) :: timeDiffs ((b :: l2).map f) =
        (b.time - a.time) :: timeDiffs (b :: l2)
      rw [hft, hft, ih]

theorem conductance_cond_map (f : SpikeRow → SpikeRow)
    (hft : ∀ r, (f r).time = r.time) (l : List SpikeRow) :
    conductance_cond (l.map f) = conductance_cond l := by
  unfold conductance_cond
  rw [timeDiffs_map f hft, List.length_map]

theorem groupTags_map (f : SpikeRow → SpikeRow)
    (hfe : ∀ r, (f r).electrode = r.electrode) (l : List SpikeRow) :
    groupTags (l.map f) = groupTags l := by
  unfold groupTags
  rw [map_proj_map f (fun r => r.electrode) hfe]

theorem groupOf_map (f : SpikeRow → SpikeRow)
    (hfe : ∀ r, (f r).electrode = r.electrode) (l : List SpikeRow) (t : String) :
    groupOf (l.map f) t = (groupOf l t).map f := by
  unfold groupOf
  rw [List.filter_map]
  congr 1
  apply List.filter_congr
  intro r _
  simp [hfe]

theorem meanAmplitude_map (f : SpikeRow → SpikeRow)
    (hfa : ∀ r, (f r).amplitude = r.amplitude) (l : List SpikeRow) :
    meanAmplitude (l.map f) = meanAmplitude l := by
  unfold meanAmplitude
  rw [map_proj_map f (fun r => r.amplitude) hfa, List.length_map]

theorem absMeanOf_map (f : SpikeRow → SpikeRow)
    (hfe : ∀ r, (f r).electrode = r.electrode)
    (hfa : ∀ r, (f r).amplitude = r.amplitude) (l : List SpikeRow) (t : String) :
    absMeanOf (l.map f) t = absMeanOf l t := by
  unfold absMeanOf
  rw [groupOf_map f hfe, meanAmplitude_map f hfa]

theorem maxAbsMean_map (f : SpikeRow → SpikeRow)
    (hfe : ∀ r, (f r).electrode = r.electrode)
    (hfa : ∀ r, (f r).amplitude = r.amplitude) (l : List SpikeRow) :
    maxAbsMean (l.map f) = maxAbsMean l := by
  unfold maxAbsMean
  rw [groupTags_map f hfe]
  congr 1
  apply List.map_congr_left
  intro t _
  exact absMeanOf_map f hfe hfa l t

theorem keepCandidates_map (f : SpikeRow → SpikeRow)
    (hfe : ∀ r, (f r).electrode = r.electrode)
    (hfa : ∀ r, (f r).amplitude = r.amplitude) (l : List SpikeRow) :
    keepCandidates (l.map f) = keepCandidates l := by
  unfold keepCandidates
  rw [groupTags_map f hfe]
  apply List.filter_congr
  intro t _
  rw [maxAbsMean_map f hfe hfa, absMeanOf_map f hfe hfa]

theorem choose_keep_electrode_map (f : SpikeRow → SpikeRow)
    (hfe : ∀ r, (f r).electrode = r.electrode)
    (hfa : ∀ r, (f r).amplitude = r.amplitude) (l : List SpikeRow) :
    choose_keep_electrode (l.map f) = choose_keep_electrode l := by
  unfold choose_keep_electrode
  rw [keepCandidates_map f hfe hfa]

theorem pair_step_map (f : SpikeRow → SpikeRow)
    (hft : ∀ r, (f r).time = r.time)
    (hfe : ∀ r, (f r).electrode = r.electrode)
    (hfa : ∀ r, (f r).amplitude = r.amplitude)
    (hfi : ∀ r, (f r).idx = r.idx) (sub : List SpikeRow) :
    pair_step (sub.map f) = pair_step sub := by
  have hcof : ((cofiring_events (sub.map f) (12/10000)).map sortByElectrode).flatten =
      (((cofiring_events sub (12/10000)).map sortByElectrode).flatten).map f := by
    rw [cofiring_events_map f hft, List.map_map]
    have : sortByElectrode ∘ List.map f = List.map f ∘ sortByElectrode := by
      funext ev
      exact sortByElectrode_map f hfe ev
    rw [this, ← List.map_map, List.map_flatten]
  have hempty : (cofiring_events (sub.map f) (12/10000)).isEmpty =
      (cofiring_events sub (12/10000)).isEmpty := by
    rw [cofiring_events_map f hft]
    cases cofiring_events sub (12/10000) <;> rfl
  simp only [pair_step, pair_cofiring]
  rw [hempty, hcof]
  cases h : (cofiring_events sub (12/10000)).isEmpty with
  | true => simp [h]
  | false =>
    simp only [h, Bool.false_eq_true, if_false]
    rw [conductance_cond_map f hft, choose_keep_electrode_map f hfe hfa]
    cases hc :
      conductance_cond ((cofiring_events sub (12/10000)).map sortByElectrode).flatten with
    | false => simp
    | true =>
      simp only [if_true]
      cases hk :
        choose_keep_electrode
          ((cofiring_events sub (12/10000)).map sortByElectrode).flatten with
      | none => rfl
      | some keep =>
        simp only [Except.ok.injEq]
        rw [List.filter_map]
        have hp : ((fun r : SpikeRow => r.electrode != keep) ∘ f) =
            (fun r : SpikeRow => r.electrode != keep) := by
          funext r
          simp [Function.comp_apply, hfe]
        rw [hp, map_proj_map f (fun r => r.idx) hfi]

theorem pairFrame_map (f : SpikeRow → SpikeRow)
    (hfe : ∀ r, (f r).electrode = r.electrode) (df : List SpikeRow)
    (p : String × String) :
    pairFrame (df.map f) p = (pairFrame df p).map f := by
  unfold pairFrame
  rw [groupOf_map f hfe, groupOf_map f hfe, List.map_append]

theorem nonAnalogTags_map (f : SpikeRow → SpikeRow)
    (hfe : ∀ r, (f r).electrode = r.electrode) (df : List SpikeRow) :
    nonAnalogTags (df.map f) = nonAnalogTags df := by
  unfold nonAnalogTags
  rw [groupTags_map f hfe]

theorem foldlM_congr_step {γ : Type} (f1 f2 : List Nat → γ → Except PyErr (List Nat))
    (h : ∀ acc p, f1 acc p = f2 acc p) (l : List γ) :
    ∀ init : List Nat, l.foldlM f1 init = l.foldlM f2 init := by
  induction l with
  | nil => intro init; rfl
  | cons p l ih =>
    intro init
    simp only [List.foldlM_cons, h]
    cases h2 : f2 init p with
    | error e => simp [Bind.bind, Except.bind]
    | ok acc =>
      simp only [Bind.bind, Except.bind]
      exact ih acc

theorem locsFold_map (f : SpikeRow → SpikeRow)
    (hft : ∀ r, (f r).time = r.time)
    (hfe : ∀ r, (f r).electrode = r.electrode)
    (hfa : ∀ r, (f r).amplitude = r.amplitude)
    (hfi : ∀ r, (f r).idx = r.idx)
    (df : List SpikeRow) (pairs : List (String × String)) :
    locsFold (df.map f) pairs = locsFold df pairs := by
  unfold locsFold
  apply foldlM_congr_step
  intro acc p
  rw [pairFrame_map f hfe, pair_step_map f hft hfe hfa hfi]

/-- C6: retagging an already-tagged table flips no flag — the second run
computes the same flag locations (the pipeline never reads the
`conductance` column) and rewriting the flags is idempotent; and the
final flag column depends only on the set of recorded row labels, not on
the order (or multiplicity) in which the pair loop accumulated them. -/
theorem C6_tagging_idempotent_and_set_determined :
    (∀ df out, tag_conductance_spikes df = .ok out →
      tag_conductance_spikes out = .ok out) ∧
    (∀ (df : List SpikeRow) (l1 l2 : List Nat), (∀ i, i ∈ l1 ↔ i ∈ l2) →
      applyFlags df l1 = applyFlags df l2) := by
  constructor
  · intro df out h
    unfold tag_conductance_spikes at h ⊢
    cases hl : locsFold df (combinations2 (nonAnalogTags df)) with
    | error e => rw [hl] at h; cases h
    | ok locs =>
      rw [hl] at h
      have hout : applyFlags df locs = out := by
        cases h
        rfl
      subst hout
      have happ : applyFlags df locs =
          df.map (fun r => { r with conductance := decide (r.idx ∈ locs) }) := rfl
      rw [happ, nonAnalogTags_map (fun r => { r with conductance := decide (r.idx ∈ locs) })
        (fun r => rfl) df,
        locsFold_map (fun r => { r with conductance := decide (r.idx ∈ locs) })
        (fun r => rfl) (fun r => rfl) (fun r => rfl) (fun r => rfl) df, hl]
      dsimp only
      congr 1
      unfold applyFlags
      rw [List.map_map]
      apply List.map_congr_left
      intro r _
      rfl
  · intro df l1 l2 h
    unfold applyFlags
    apply List.map_congr_left
    intro r _
    have : decide (r.idx ∈ l1) = decide (r.idx ∈ l2) := decide_eq_decide.mpr (h r.idx)
    rw [this]

/-- C6 witness: the theorem applied to a concrete table that tags
successfully, and to two flag-location lists with equal membership. -/
theorem C6_tagging_idempotent_witness :
    tag_conductance_spikes (applyFlags dfFar []) = .ok (applyFlags dfFar []) ∧
    applyFlags dfC3 [1, 2] = applyFlags dfC3 [2, 1] :=
  ⟨C6_tagging_idempotent_and_set_determined.1 dfFar (applyFlags dfFar []) (by decide),
   C6_tagging_idempotent_and_set_determined.2 dfC3 [1, 2] [2, 1]
     (fun i => by simp [List.mem_cons, or_comm])⟩

/-- C7 witness: the theorem applied to a 10-sample series with `dt = 1`,
window length 3 and one spike at `t = 5`. -/
theorem C7_waveform_window_length_witness :
    ∃ w, ([[(0:ℚ), 0]] : List (List ℚ))[0]? = some w ∧
      w.length = 2 * (⌊(3:ℚ) / (2 * 1)⌋).toNat :=
  (C7_waveform_window_length 10 1 3 (List.replicate 10 0) [5] [[0, 0]]
    (by norm_num) (by norm_num) (by norm_num) (by decide) (by decide)).2 0 5
    (by decide) (by norm_num) (by norm_num)

/-- C8 witness: the theorem applied to a two-sample series at 20 kHz with
the default 200–4000 Hz band. -/
theorem C8_bandpass_same_length_and_index_witness :
    ∃ out, bandpass_filter ⟨[0, 1/20000], [1, 2]⟩ 200 4000 = .ok out ∧
      out.index = (⟨[0, 1/20000], [1, 2]⟩ : QSeries).index ∧
      out.values.length = (⟨[0, 1/20000], [1, 2]⟩ : QSeries).values.length :=
  C8_bandpass_same_length_and_index ⟨[0, 1/20000], [1, 2]⟩ 200 4000 0 (1/20000) []
    rfl (by norm_num) (by norm_num) (by norm_num) (by norm_num) (by norm_num)

/-- C10 witness: the theorem applied to a concrete table, a missing key
`"zz"` and the out-of-range integer index 5. -/
theorem C10_getitem_missing_key_empty_frame_witness :
    MEASpikeDict.getitem mdC10 (.str "zz") = .ok ⟨mdC10.spike_table.cols, []⟩ ∧
      MEASpikeDict.getitem mdC10 (.int 5) = .error .indexError :=
  C10_getitem_missing_key_empty_frame mdC10 "zz" 5 (by decide) (by decide)

end Pymea
